import Mathlib

/-!
Shallow embedding of the golz4 streaming/whole-message framing layer.

Byte slices are modelled as `List ℕ`; Go's distinction between the length
and the capacity of a slice, which `UncompressAllocHdr` depends on, is
modelled by `GoSlice` (visible data plus spare capacity).  The external
liblz4 block codec is out of scope for the repository and is passed in as
an abstract function parameter wherever a definition calls into it.
Go errors are modelled as distinguishable values of `GoErr`; `io.ReadFull`
over a `bytes.Reader`-like source is modelled by `readFull`.
-/

namespace GoLZ4

set_option maxRecDepth 16384

/-- Errors surfaced by the Go code, as distinguishable values:
`io.EOF`, `io.ErrUnexpectedEOF`, `errTooShort`,
the Uncompress error "Malformed compression stream",
the writeFrame error "error compressing",
the reader error "error decompressing", and a sink (underlying writer)
failure. -/
inductive GoErr where
  | eof
  | unexpectedEOF
  | tooShort
  | malformed
  | compressFailed
  | decompressFailed
  | sinkFailed
  deriving DecidableEq, Repr

/-- streamingBlockSize = 1024 * 64 from the source. -/
def streamingBlockSize : ℕ := 1024 * 64

/-- blockHeaderSize = 4 from the source. -/
def blockHeaderSize : ℕ := 4

/-- boundedStreamingBlockSize = streamingBlockSize + streamingBlockSize/255 + 16. -/
def boundedStreamingBlockSize : ℕ := streamingBlockSize + streamingBlockSize / 255 + 16

/-- Go `binary.LittleEndian.PutUint32` of `uint32(n)`: the four bytes of
`n` in little-endian order. -/
def putUint32LE (n : ℕ) : List ℕ :=
  [n % 256, n / 256 % 256, n / 65536 % 256, n / 16777216 % 256]

/-- Go `binary.LittleEndian.Uint32` on the first four bytes of a byte list. -/
def leUint32 (b : List ℕ) : ℕ :=
  b.getD 0 0 + 256 * b.getD 1 0 + 65536 * b.getD 2 0 + 16777216 * b.getD 3 0

/-- Go `io.ReadFull(r, buf)` with `len(buf) = k` over a `bytes.Reader`-like
source holding `src`: returns the bytes read, the remaining source, and the
error (`nil` when `k` bytes were delivered, `io.EOF` when the source was
exhausted before any byte was read, `io.ErrUnexpectedEOF` after a partial
read). -/
def readFull (src : List ℕ) (k : ℕ) : List ℕ × List ℕ × Option GoErr :=
  if k = 0 then ([], src, none)
  else if k ≤ src.length then (src.take k, src.drop k, none)
  else if src.length = 0 then ([], [], some GoErr.eof)
  else (src, [], some GoErr.unexpectedEOF)

/-- Writing the bytes `w` into the front of a fixed buffer `dst`
(the effect of the codec writing into a Go slice): the length of `dst`
is preserved. -/
def overwrite (dst w : List ℕ) : List ℕ :=
  (w ++ dst.drop w.length).take dst.length

/-- A Go byte slice: the visible bytes (`data`, indices below `len`) plus
the spare capacity beyond the length (`cap - len` elements of the backing
array). -/
structure GoSlice where
  data : List ℕ
  spare : ℕ
  deriving DecidableEq, Repr

/-- Go `cap` of a slice. -/
def GoSlice.cap (s : GoSlice) : ℕ := s.data.length + s.spare

/-- Go `s[:0]`: empty visible data, same backing array (capacity kept). -/
def GoSlice.take0 (s : GoSlice) : GoSlice := ⟨[], s.data.length + s.spare⟩

/-- `CompressBound(in) = len(in) + ((len(in) / 255) + 16)` from lz4.go. -/
def CompressBound (inp : List ℕ) : ℕ :=
  inp.length + (inp.length / 255 + 16)

/-- `CompressBoundHdr(in) = CompressBound(in) + 4` from header.go. -/
def CompressBoundHdr (inp : List ℕ) : ℕ :=
  CompressBound inp + 4

/-- `Compress(out, in)` from lz4.go: calls `LZ4_compress_default` (modelled
by the abstract `compSafe : src → dstCapacity → compressed bytes`, empty
output meaning failure, as the C call returns 0 then), writes the result
into `out` and returns `(out after the call, outSize, err)` with the
"Insufficient space for compression" error when `outSize == 0`. -/
def Compress (compSafe : List ℕ → ℕ → List ℕ) (out inp : List ℕ) :
    List ℕ × ℕ × Option GoErr :=
  let c := compSafe inp out.length
  (overwrite out c, c.length, if c.length = 0 then some GoErr.compressFailed else none)

/-- `Uncompress(out, in)` from lz4.go: calls `LZ4_decompress_safe`
(modelled by the abstract `decSafe : src → dstCapacity → (return code,
bytes written)`), and reports "Malformed compression stream" when the
return code is negative.  Returns `(out after the call, outSize, err)`. -/
def Uncompress (decSafe : List ℕ → ℕ → ℤ × List ℕ) (out inp : List ℕ) :
    List ℕ × ℤ × Option GoErr :=
  let r := decSafe inp out.length
  (overwrite out r.2, r.1, if r.1 < 0 then some GoErr.malformed else none)

/-- `UncompressHdr(out, in)` from header.go: errTooShort when
`len(in) < 4`, otherwise `Uncompress(out, in[4:])`. -/
def UncompressHdr (decSafe : List ℕ → ℕ → ℤ × List ℕ) (out : GoSlice)
    (inp : List ℕ) : GoSlice × Option GoErr :=
  if inp.length < 4 then (out, some GoErr.tooShort)
  else
    let r := Uncompress decSafe out.data (inp.drop 4)
    (⟨r.1, out.spare⟩, r.2.2)

/-- `UncompressAllocHdr(out, in)` from header.go: errTooShort when
`len(in) < 4`; reads `origlen` from the first 4 bytes; returns `out[:0]`
without a codec call when `origlen == 0` (`origlen <= 0` on a uint32);
allocates a fresh buffer of exactly `origlen` bytes when
`origlen > uint32(len(out))`; then `Uncompress` into the chosen buffer. -/
def UncompressAllocHdr (decSafe : List ℕ → ℕ → ℤ × List ℕ) (out : GoSlice)
    (inp : List ℕ) : GoSlice × Option GoErr :=
  if inp.length < 4 then (out, some GoErr.tooShort)
  else
    let origlen := leUint32 inp
    if origlen = 0 then (out.take0, none)
    else
      let dst : GoSlice :=
        if origlen > out.data.length % 4294967296 then ⟨List.replicate origlen 0, 0⟩
        else out
      let r := Uncompress decSafe dst.data (inp.drop 4)
      (⟨r.1, dst.spare⟩, r.2.2)

/-! ## Stream encoder (`Writer` in lz4.go)

The opaque `LZ4_stream_t` history context is an abstract state of type
`CS`; `LZ4_compress_fast_continue` is an abstract function
`comp : CS → block → CS × compressed bytes` (an empty result models the
C call returning a non-positive count, the only failure it can report at
the capacity `boundedStreamingBlockSize` the code always supplies).
The `io.Writer` sink is an abstract state of type `κ` with a write
function; `listSink` is the `bytes.Buffer`-like accumulating instance. -/

/-- The state of a `Writer`: codec history context, ping-pong input buffer
index, the `totalCompressedWritten` counter and the sink state. -/
structure WState (CS κ : Type) where
  cstate : CS
  inpBufIndex : ℕ
  totalCompressedWritten : ℕ
  sink : κ
  deriving DecidableEq, Repr

/-- A `bytes.Buffer`-like sink: appends and never fails. -/
def listSink (s b : List ℕ) : List ℕ × Option GoErr := (s ++ b, none)

/-- `Writer.writeFrame(src)` from lz4.go: advance the ping-pong index
(`nextInputBuffer`), copy `src` there and compress it with the history
context, fail with "error compressing" on a non-positive count, write the
4-byte little-endian length header then the compressed payload to the
sink, and return `(len(src), nil)`. -/
def writeFrame {CS κ : Type} (comp : CS → List ℕ → CS × List ℕ)
    (sinkW : κ → List ℕ → κ × Option GoErr)
    (st : WState CS κ) (src : List ℕ) : WState CS κ × ℕ × Option GoErr :=
  let idx := (st.inpBufIndex + 1) % 2
  let r := comp st.cstate src
  if r.2.length = 0 then
    ({ st with cstate := r.1, inpBufIndex := idx }, 0, some GoErr.compressFailed)
  else
    let w1 := sinkW st.sink (putUint32LE r.2.length)
    match w1.2 with
    | some e => ({ st with cstate := r.1, inpBufIndex := idx, sink := w1.1 }, 0, some e)
    | none =>
      let w2 := sinkW w1.1 r.2
      match w2.2 with
      | some e => ({ st with cstate := r.1, inpBufIndex := idx, sink := w2.1 }, 0, some e)
      | none =>
        (⟨r.1, idx, st.totalCompressedWritten + r.2.length + 4, w2.1⟩,
          src.length, none)

/-- The loop of `Writer.Write(src)` from lz4.go, on the remaining input:
while bytes remain, slice off the next block
`src[totalWritten:totalWritten+streamingBlockSize]` (capped at `len(src)`),
pass it to `writeFrame`, return `(totalWritten, err)` on error and
accumulate `totalWritten` otherwise.  The fuel argument (instantiated with
`len(src)`, an upper bound on the number of iterations since every block
is nonempty) makes the recursion structural. -/
def writeLoopGo {CS κ : Type} (comp : CS → List ℕ → CS × List ℕ)
    (sinkW : κ → List ℕ → κ × Option GoErr) :
    ℕ → WState CS κ → List ℕ → ℕ → WState CS κ × ℕ × Option GoErr
  | _, st, [], acc => (st, acc, none)
  | 0, st, _, acc => (st, acc, none)
  | fuel + 1, st, rest@(_ :: _), acc =>
    let r := writeFrame comp sinkW st (rest.take streamingBlockSize)
    match r.2.2 with
    | some e => (r.1, acc, some e)
    | none => writeLoopGo comp sinkW fuel r.1 (rest.drop streamingBlockSize) (acc + r.2.1)

/-- `Writer.Write(src)` from lz4.go. -/
def writerWrite {CS κ : Type} (comp : CS → List ℕ → CS × List ℕ)
    (sinkW : κ → List ℕ → κ × Option GoErr)
    (st : WState CS κ) (src : List ℕ) : WState CS κ × ℕ × Option GoErr :=
  writeLoopGo comp sinkW src.length st src 0

/-- The consecutive blocks of at most `streamingBlockSize` bytes that the
`Write` loop slices off the front of `src` (fuel-indexed helper). -/
def chunksGo : ℕ → List ℕ → List (List ℕ)
  | _, [] => []
  | 0, _ :: _ => []
  | fuel + 1, l@(_ :: _) =>
    l.take streamingBlockSize :: chunksGo fuel (l.drop streamingBlockSize)

/-- The blocks the `Write` loop processes, front to back. -/
def chunks (l : List ℕ) : List (List ℕ) := chunksGo l.length l

/-- Reference recursion over an explicit block list, mirroring one
`writeFrame` call per block exactly as the `Write` loop does. -/
def processChunks {CS κ : Type} (comp : CS → List ℕ → CS × List ℕ)
    (sinkW : κ → List ℕ → κ × Option GoErr) :
    WState CS κ → List (List ℕ) → ℕ → WState CS κ × ℕ × Option GoErr
  | st, [], acc => (st, acc, none)
  | st, c :: cs, acc =>
    let r := writeFrame comp sinkW st c
    match r.2.2 with
    | some e => (r.1, acc, some e)
    | none => processChunks comp sinkW r.1 cs (acc + r.2.1)

/-- The compressed form of each block in order, threading the codec
history context. -/
def compressedBlocks {CS : Type} (comp : CS → List ℕ → CS × List ℕ) :
    CS → List (List ℕ) → List (List ℕ)
  | _, [] => []
  | cs, b :: bs =>
    let r := comp cs b
    r.2 :: compressedBlocks comp r.1 bs

/-- The framed byte stream the encoder produces for a list of blocks:
for each block, a 4-byte little-endian header holding the compressed
length, then the compressed payload. -/
def encodeFrames {CS : Type} (comp : CS → List ℕ → CS × List ℕ) :
    CS → List (List ℕ) → List ℕ
  | _, [] => []
  | cs, b :: bs =>
    let r := comp cs b
    putUint32LE r.2.length ++ (r.2 ++ encodeFrames comp r.1 bs)

/-! ## Stream decoders (`reader` and `DecompressReader` in lz4.go)

The opaque `LZ4_streamDecode_t` history context is an abstract state of
type `DS`; `LZ4_decompress_safe_continue` at destination capacity
`streamingBlockSize` is an abstract function
`dec : DS → compressed → DS × DecRes` returning either the decompressed
bytes or the negative return code of a failing C call. -/

/-- Result of a `LZ4_decompress_safe_continue` call: the decompressed
bytes, or the (negative) return code of a failing call. -/
inductive DecRes where
  | fail (code : ℤ)
  | ok (out : List ℕ)
  deriving DecidableEq, Repr

/-- The state of the deprecated push-style `reader`: remaining source
bytes, decode history context, the `pending` slice saved for future reads
(`none` models a nil slice) and the `isLeft` ping-pong flag. -/
structure RState (DS : Type) where
  src : List ℕ
  dstate : DS
  pending : Option (List ℕ)
  isLeft : Bool
  deriving DecidableEq, Repr

/-- `reader.readFromPending(dst)` from lz4.go: serve
`min(len(dst), len(pending))` bytes from the pending slice, clearing it
to nil when fully drained. -/
def readFromPending {DS : Type} (st : RState DS) (k : ℕ) :
    RState DS × List ℕ × ℤ × Option GoErr :=
  match st.pending with
  | none => (st, [], 0, none)
  | some l =>
    let copied := min k l.length
    let pending2 := if copied = l.length then none else some (l.drop copied)
    ({ st with pending := pending2 }, l.take copied, (copied : ℤ), none)

/-- `reader.Read(dst)` from lz4.go with `len(dst) = k`: immediate
`(0, nil)` on an empty destination; serve from `pending` if set;
otherwise read the 4-byte little-endian frame length.  The payload is
staged in the fixed `boundedStreamingBlockSize`-byte array
`uncompressedBuf`, so when the announced length exceeds that bound the
slicing `uncompressedBuf[:blockSize]` PANICS with a slice-bounds
violation (modelled as `none`; a normal return is `some`).  Otherwise
read that many payload bytes via `io.ReadFull`, flip the ping-pong
slot, decompress with the history context (returning the negative
count and "error decompressing" on a failing call), copy
`min(decompressed, len(dst))` bytes out and retain any remainder as the
new pending slice. -/
def readerRead {DS : Type} (dec : DS → List ℕ → DS × DecRes)
    (st : RState DS) (k : ℕ) :
    Option (RState DS × List ℕ × ℤ × Option GoErr) :=
  if k = 0 then some (st, [], 0, none)
  else if st.pending.isSome then some (readFromPending st k)
  else
    let h := readFull st.src 4
    match h.2.2 with
    | some e => some ({ st with src := h.2.1 }, [], 0, some e)
    | none =>
      let blockSize := leUint32 h.1
      if blockSize > boundedStreamingBlockSize then none
      else
        let pl := readFull h.2.1 blockSize
        match pl.2.2 with
        | some e => some ({ st with src := pl.2.1 }, [], 0, some e)
        | none =>
          let isLeft2 := !st.isLeft
          let d := dec st.dstate pl.1
          match d.2 with
          | DecRes.fail code =>
            some ({ st with src := pl.2.1, dstate := d.1, isLeft := isLeft2 },
              [], code, some GoErr.decompressFailed)
          | DecRes.ok out =>
            let copySize := min out.length k
            let pending2 := if out.length > k then some (out.drop copySize) else none
            some (⟨pl.2.1, d.1, pending2, isLeft2⟩, out.take copySize, (copySize : ℤ), none)

/-- The state of the pull-style `DecompressReader`: remaining source
bytes, decode history context, the unread remainder of the
`outputBuffer` cursor over the current ping-pong slot, and the ping-pong
index. -/
structure DRState (DS : Type) where
  src : List ℕ
  dstate : DS
  buf : List ℕ
  inpBufIndex : ℕ
  deriving DecidableEq, Repr

/-- `DecompressReader.Read(dst)` from lz4.go with `len(dst) = k`: first
drain the `outputBuffer` cursor (returning whenever it yields at least
one byte); otherwise read the 4-byte frame length and advance the
ping-pong index (`nextDecompressionBuffer`).  The compressed payload is
staged in the fixed `boundedStreamingBlockSize`-byte buffer `inPtr`, so
when the announced length exceeds that bound the slicing
`inPtr[:compressedBlockSize]` PANICS with a slice-bounds violation
(modelled as `none`; a normal return is `some`).  Otherwise read the
payload via `io.ReadFull`, decompress with the history context
(returning the negative count and "error decompressing" on a failing
call), point the cursor at the decompressed bytes and serve
`min(len(dst), decompressed)` of them. -/
def decompressReaderRead {DS : Type} (dec : DS → List ℕ → DS × DecRes)
    (st : DRState DS) (k : ℕ) :
    Option (DRState DS × List ℕ × ℤ × Option GoErr) :=
  let n := min k st.buf.length
  if 0 < n then
    some ({ st with buf := st.buf.drop n }, st.buf.take n, (n : ℤ), none)
  else
    let h := readFull st.src 4
    match h.2.2 with
    | some e => some ({ st with src := h.2.1 }, [], 0, some e)
    | none =>
      let blockSize := leUint32 h.1
      let idx := (st.inpBufIndex + 1) % 2
      if blockSize > boundedStreamingBlockSize then none
      else
        let pl := readFull h.2.1 blockSize
        match pl.2.2 with
        | some e => some ({ st with src := pl.2.1, inpBufIndex := idx }, [], 0, some e)
        | none =>
          let d := dec st.dstate pl.1
          match d.2 with
          | DecRes.fail code =>
            some ({ st with src := pl.2.1, dstate := d.1, inpBufIndex := idx },
              [], code, some GoErr.decompressFailed)
          | DecRes.ok out =>
            let n2 := min k out.length
            some (⟨pl.2.1, d.1, out.drop n2, idx⟩, out.take n2, (n2 : ℤ), none)

/-- The observable outcome of one `Read` call: the bytes written into the
destination, the returned count and the returned error. -/
abbrev ReadObs := List ℕ × ℤ × Option GoErr

/-- The observable results of a sequence of `reader.Read` calls with the
given destination sizes: `some obs` for a normal return, and a final
`none` entry when a call panics (the panic aborts the run). -/
def readerTrace {DS : Type} (dec : DS → List ℕ → DS × DecRes) :
    RState DS → List ℕ → List (Option ReadObs)
  | _, [] => []
  | st, k :: ks =>
    match readerRead dec st k with
    | none => [none]
    | some r => some r.2 :: readerTrace dec r.1 ks

/-- The observable results of a sequence of `DecompressReader.Read` calls
with the given destination sizes: `some obs` for a normal return, and a
final `none` entry when a call panics (the panic aborts the run). -/
def decompressReaderTrace {DS : Type} (dec : DS → List ℕ → DS × DecRes) :
    DRState DS → List ℕ → List (Option ReadObs)
  | _, [] => []
  | st, k :: ks =>
    match decompressReaderRead dec st k with
    | none => [none]
    | some r => some r.2 :: decompressReaderTrace dec r.1 ks

/-- Drive `reader.Read` with a destination of size `k` until it returns an
error (collecting all delivered bytes), with fuel bounding the number of
calls; a panic aborts the drive with no result. -/
def readMany {DS : Type} (dec : DS → List ℕ → DS × DecRes) :
    ℕ → RState DS → ℕ → List ℕ × Option GoErr
  | 0, _, _ => ([], none)
  | fuel + 1, st, k =>
    match readerRead dec st k with
    | none => ([], none)
    | some r =>
      match r.2.2.2 with
      | some e => ([], some e)
      | none => (r.2.1 ++ (readMany dec fuel r.1 k).1, (readMany dec fuel r.1 k).2)

/-- The pending bytes a `reader` still owes the caller (nil pending means
none). -/
def pendList : Option (List ℕ) → List ℕ
  | none => []
  | some l => l

/-- The state relation of the equivalence proof between the push-style
`reader` and the pull-style `DecompressReader`: same remaining source,
same decode history context, and the reader's pending bytes are exactly
the unread remainder of the DecompressReader's output cursor (a reader
never stores an empty non-nil pending slice). -/
def RelRD {DS : Type} (r : RState DS) (d : DRState DS) : Prop :=
  r.src = d.src ∧ r.dstate = d.dstate ∧ pendList r.pending = d.buf ∧ r.pending ≠ some []

/-- The collaborator contract for the streaming codec pair
(`compress_continue` and `decompress_continue` driven with matched
history contexts, related by `Sync`): on every nonempty block of at most
`streamingBlockSize` bytes, compression succeeds within
`boundedStreamingBlockSize` bytes, and decompression with the matched
context restores the block and keeps the contexts matched. -/
def StreamSync {CS DS : Type} (comp : CS → List ℕ → CS × List ℕ)
    (dec : DS → List ℕ → DS × DecRes) (Sync : CS → DS → Prop) : Prop :=
  ∀ cs ds b, Sync cs ds → b ≠ [] → b.length ≤ streamingBlockSize →
    (comp cs b).2 ≠ []
    ∧ (comp cs b).2.length ≤ boundedStreamingBlockSize
    ∧ (dec ds (comp cs b).2).2 = DecRes.ok b
    ∧ Sync (comp cs b).1 (dec ds (comp cs b).2).1

/-! ## Concrete codec instances

Closed counterexample and witness statements need concrete instances of
the abstract codec parameters; the identity codec satisfies the
collaborator contract on the inputs where it is used, and the failing
instances model a codec rejecting a malformed stream. -/

/-- Identity streaming compressor: the compressed form of a block is the
block itself. -/
def idComp : Unit → List ℕ → Unit × List ℕ := fun _ b => ((), b)

/-- Identity streaming decompressor, inverse of `idComp`. -/
def idDec : Unit → List ℕ → Unit × DecRes := fun _ c => ((), DecRes.ok c)

/-- A streaming decompressor that rejects every block with return code
-1, as `LZ4_decompress_safe_continue` does on a malformed stream. -/
def failDec : Unit → List ℕ → Unit × DecRes := fun _ _ => ((), DecRes.fail (-1))

/-- Identity one-shot compressor. -/
def idCompSafe : List ℕ → ℕ → List ℕ := fun b _ => b

/-- Identity one-shot decompressor, inverse of `idCompSafe`. -/
def idDecSafe : List ℕ → ℕ → ℤ × List ℕ := fun c _ => ((c.length : ℤ), c)

/-- A one-shot decompressor producing a fixed single byte, used to
observe which destination buffer `UncompressAllocHdr` hands to the
codec. -/
def probeDecSafe : List ℕ → ℕ → ℤ × List ℕ := fun _ _ => (1, [7])

/-! ## Basic lemmas -/

theorem putUint32LE_length (n : ℕ) : (putUint32LE n).length = 4 := rfl

theorem leUint32_putUint32LE (n : ℕ) (h : n < 4294967296) :
    leUint32 (putUint32LE n) = n := by
  show n % 256 + 256 * (n / 256 % 256) + 65536 * (n / 65536 % 256) +
    16777216 * (n / 16777216 % 256) = n
  omega

theorem overwrite_exact (dst w : List ℕ) (h : dst.length = w.length) :
    overwrite dst w = w := by
  simp [overwrite, h, List.drop_eq_nil_of_le]

theorem overwrite_length (dst w : List ℕ) : (overwrite dst w).length = dst.length := by
  simp [overwrite]
  omega

theorem overwrite_take (dst w : List ℕ) (h : w.length ≤ dst.length) :
    (overwrite dst w).take w.length = w := by
  simp [overwrite, List.take_take, Nat.min_eq_left h, List.take_append_of_le_length,
    Nat.le_refl]

theorem readFull_split (a rest : List ℕ) (k : ℕ) (h : a.length = k) :
    readFull (a ++ rest) k = (a, rest, none) := by
  subst h
  unfold readFull
  rcases eq_or_ne a.length 0 with h0 | h0
  · simp [List.length_eq_zero.mp h0]
  · rw [if_neg h0, if_pos (by simp), List.take_left, List.drop_left]

theorem readFull_eof (k : ℕ) (hk : k ≠ 0) :
    readFull [] k = ([], [], some GoErr.eof) := by
  simp [readFull, hk]

theorem readFull_short (src : List ℕ) (k : ℕ) (h1 : src ≠ []) (h2 : src.length < k) :
    readFull src k = (src, [], some GoErr.unexpectedEOF) := by
  unfold readFull
  rw [if_neg (by omega), if_neg (by omega), if_neg (by simpa [List.length_eq_zero] using h1)]

/-! ## Claim C2 -/

/-- C2: For every input slice `in`, `CompressBound(in)` equals
`len(in) + len(in)/255 + 16` (integer division); in particular
`CompressBound` of inputs of length 0, 1, 254, 255, 510 equals 16, 17,
270, 272, 528 respectively, and `CompressBoundHdr(in)` equals
`CompressBound(in) + 4`. -/
theorem claim2_compress_bound (inp : List ℕ) :
    CompressBound inp = inp.length + inp.length / 255 + 16
    ∧ (inp.length = 0 → CompressBound inp = 16)
    ∧ (inp.length = 1 → CompressBound inp = 17)
    ∧ (inp.length = 254 → CompressBound inp = 270)
    ∧ (inp.length = 255 → CompressBound inp = 272)
    ∧ (inp.length = 510 → CompressBound inp = 528)
    ∧ CompressBoundHdr inp = CompressBound inp + 4 := by
  have h : CompressBound inp = inp.length + (inp.length / 255 + 16) := rfl
  have h2 : CompressBoundHdr inp = CompressBound inp + 4 := rfl
  omega

/-- Witness for C2 at the boundary lengths 0, 1, 254, 255, 510. -/
theorem claim2_compress_bound_witness :
    CompressBound [] = 16 ∧ CompressBound [0] = 17
    ∧ CompressBound (List.replicate 254 0) = 270
    ∧ CompressBound (List.replicate 255 0) = 272
    ∧ CompressBound (List.replicate 510 0) = 528 :=
  ⟨(claim2_compress_bound []).2.1 rfl,
   (claim2_compress_bound [0]).2.2.1 rfl,
   (claim2_compress_bound (List.replicate 254 0)).2.2.2.1 (by decide),
   (claim2_compress_bound (List.replicate 255 0)).2.2.2.2.1 (by decide),
   (claim2_compress_bound (List.replicate 510 0)).2.2.2.2.2.1 (by decide)⟩

/-! ## Claim C10 -/

/-- C10: Calling `Read` on the push-style stream decoder with an empty
destination slice returns `(0, nil)` immediately: it consumes no source
bytes, makes no codec call, and leaves the whole decoder state (pending
tail, history context, ping-pong slot selection) unchanged, for every
codec and every decoder state. -/
theorem claim10_empty_read {DS : Type} (dec : DS → List ℕ → DS × DecRes)
    (st : RState DS) : readerRead dec st 0 = some (st, [], 0, none) := by
  simp [readerRead]

/-! ## Claim C9 -/

/-- C9: For `len(in) < 4`, `UncompressHdr` and `UncompressAllocHdr`
return the too-short error without touching the destination (and
`UncompressAllocHdr` returns its argument `out` unchanged), for every
codec (so the block codec is never invoked); for `len(in) >= 4` neither
operation returns the too-short error. -/
theorem claim9_too_short (decSafe : List ℕ → ℕ → ℤ × List ℕ)
    (out : GoSlice) (inp : List ℕ) :
    (inp.length < 4 →
      UncompressHdr decSafe out inp = (out, some GoErr.tooShort)
      ∧ UncompressAllocHdr decSafe out inp = (out, some GoErr.tooShort))
    ∧ (4 ≤ inp.length →
      (UncompressHdr decSafe out inp).2 ≠ some GoErr.tooShort
      ∧ (UncompressAllocHdr decSafe out inp).2 ≠ some GoErr.tooShort) := by
  constructor
  · intro h
    simp [UncompressHdr, UncompressAllocHdr, h]
  · intro h
    have h4 : ¬ inp.length < 4 := by omega
    constructor
    · simp only [UncompressHdr, if_neg h4, Uncompress]
      split <;> simp
    · simp only [UncompressAllocHdr, if_neg h4, Uncompress]
      split
      · simp
      · split <;> · split <;> simp

/-- Witness for C9: a 2-byte input is rejected as too short by both
decoders, and a 5-byte input is not. -/
theorem claim9_too_short_witness :
    UncompressHdr probeDecSafe ⟨[0], 0⟩ [1, 2] = (⟨[0], 0⟩, some GoErr.tooShort)
    ∧ UncompressAllocHdr probeDecSafe ⟨[0], 0⟩ [1, 2] = (⟨[0], 0⟩, some GoErr.tooShort)
    ∧ (UncompressHdr probeDecSafe ⟨[0], 0⟩ [1, 0, 0, 0, 5]).2 ≠ some GoErr.tooShort
    ∧ (UncompressAllocHdr probeDecSafe ⟨[0], 0⟩ [1, 0, 0, 0, 5]).2 ≠ some GoErr.tooShort := by
  have h1 := (claim9_too_short probeDecSafe ⟨[0], 0⟩ [1, 2]).1 (by decide)
  have h2 := (claim9_too_short probeDecSafe ⟨[0], 0⟩ [1, 0, 0, 0, 5]).2 (by decide)
  exact ⟨h1.1, h1.2, h2.1, h2.2⟩

/-! ## Claim C7 -/

/-- C7: For every input `in` with `len(in) >= 4` whose first four bytes
encode the little-endian value 0, `UncompressAllocHdr` returns a
zero-length result (`out[:0]`) and no error, for every codec (so the
block codec is never invoked), regardless of how many trailing bytes
follow the 4-byte header. -/
theorem claim7_zero_length (decSafe : List ℕ → ℕ → ℤ × List ℕ)
    (out : GoSlice) (inp : List ℕ) (h4 : 4 ≤ inp.length)
    (h0 : leUint32 inp = 0) :
    UncompressAllocHdr decSafe out inp = (out.take0, none)
    ∧ (UncompressAllocHdr decSafe out inp).1.data.length = 0 := by
  have h4n : ¬ inp.length < 4 := by omega
  simp [UncompressAllocHdr, if_neg h4n, h0, GoSlice.take0]

/-- Witness for C7: a zero header followed by two bytes of trailing
garbage decodes to an empty result with no error, under a codec that
would produce garbage if it were invoked. -/
theorem claim7_zero_length_witness :
    UncompressAllocHdr probeDecSafe ⟨[5], 2⟩ [0, 0, 0, 0, 9, 9]
      = (GoSlice.take0 ⟨[5], 2⟩, none) :=
  (claim7_zero_length probeDecSafe ⟨[5], 2⟩ [0, 0, 0, 0, 9, 9]
    (by decide) (by decide)).1

/-! ## Claim C8 -/

/-- C8 counterexample: with a destination of length 0 but capacity 4 and
a stored original length L = 1, the capacity would suffice, yet
`UncompressAllocHdr` allocates and returns a fresh 1-byte buffer (the
returned slice cannot be the given destination: its capacity is 1, not
4), because the code compares L with `len(out)`, not `cap(out)`. -/
theorem claim8_counterexample :
    0 < leUint32 [1, 0, 0, 0, 42]
    ∧ leUint32 [1, 0, 0, 0, 42] ≤ GoSlice.cap ⟨[], 4⟩
    ∧ (UncompressAllocHdr probeDecSafe ⟨[], 4⟩ [1, 0, 0, 0, 42]).1 ≠ ⟨[], 4⟩
    ∧ (UncompressAllocHdr probeDecSafe ⟨[], 4⟩ [1, 0, 0, 0, 42]).1.cap = 1 := by
  decide

/-- C8 (amended): for a stored original length L > 0, a fresh buffer of
exactly L bytes is allocated and used when the destination's LENGTH
(`len(out)`, not its capacity) is less than L; otherwise the given
destination is reused; in both cases the (possibly reallocated)
destination buffer, as written by the block codec, is returned together
with any error the block codec reports. -/
theorem claim8_amended (decSafe : List ℕ → ℕ → ℤ × List ℕ) (out : GoSlice)
    (inp : List ℕ) (h4 : 4 ≤ inp.length) (hL : 0 < leUint32 inp)
    (hlen : out.data.length < 4294967296) :
    (out.data.length < leUint32 inp →
      UncompressAllocHdr decSafe out inp
        = (⟨(Uncompress decSafe (List.replicate (leUint32 inp) 0) (inp.drop 4)).1, 0⟩,
           (Uncompress decSafe (List.replicate (leUint32 inp) 0) (inp.drop 4)).2.2)
      ∧ (List.replicate (leUint32 inp) 0).length = leUint32 inp)
    ∧ (leUint32 inp ≤ out.data.length →
      UncompressAllocHdr decSafe out inp
        = (⟨(Uncompress decSafe out.data (inp.drop 4)).1, out.spare⟩,
           (Uncompress decSafe out.data (inp.drop 4)).2.2)) := by
  have h4n : ¬ inp.length < 4 := by omega
  have h0 : leUint32 inp ≠ 0 := by omega
  have hm : out.data.length % 4294967296 = out.data.length := Nat.mod_eq_of_lt hlen
  constructor
  · intro hlt
    have : leUint32 inp > out.data.length % 4294967296 := by omega
    simp [UncompressAllocHdr, if_neg h4n, h0, this]
  · intro hge
    have : ¬ leUint32 inp > out.data.length % 4294967296 := by omega
    simp [UncompressAllocHdr, if_neg h4n, h0, this]

/-- Witness for C8 (amended), on both branches: a too-short destination
is replaced by a fresh buffer of exactly L bytes, a long-enough one is
reused and overwritten in place. -/
theorem claim8_amended_witness :
    UncompressAllocHdr probeDecSafe ⟨[], 4⟩ [1, 0, 0, 0, 42] = (⟨[7], 0⟩, none)
    ∧ UncompressAllocHdr probeDecSafe ⟨[9, 9], 0⟩ [1, 0, 0, 0, 42] = (⟨[7, 9], 0⟩, none) := by
  have h1 := (claim8_amended probeDecSafe ⟨[], 4⟩ [1, 0, 0, 0, 42]
    (by decide) (by decide) (by decide)).1 (by decide)
  have h2 := (claim8_amended probeDecSafe ⟨[9, 9], 0⟩ [1, 0, 0, 0, 42]
    (by decide) (by decide) (by decide)).2 (by decide)
  refine ⟨?_, ?_⟩
  · rw [h1.1]; decide
  · rw [h2]; decide

/-! ## Claim C5 -/

/-- C5 (code bug evidence): when the block codec rejects a block with
return code -1, both `reader.Read` and `DecompressReader.Read` return
that NEGATIVE code as the byte count alongside the error, although the
partial progress was 0 bytes; so the count returned with an error is not
the partial progress and can be negative. -/
theorem claim5_negative_count :
    readerRead failDec ⟨[1, 0, 0, 0, 55], (), none, true⟩ 10
      = some (⟨[], (), none, false⟩, [], -1, some GoErr.decompressFailed)
    ∧ decompressReaderRead failDec ⟨[1, 0, 0, 0, 55], (), [], 0⟩ 10
      = some (⟨[], (), [], 1⟩, [], -1, some GoErr.decompressFailed)
    ∧ (-1 : ℤ) < 0 := by
  decide

/-! ## Claim C4 -/

/-- C4 counterexample: on a source holding exactly one complete 4-byte
header announcing 1 payload byte and nothing else, `reader.Read` returns
`io.EOF` (end-of-stream), not a truncation error, contradicting the
claim that exhaustion after the complete header surfaces a truncation
error and not end-of-stream. -/
theorem claim4_counterexample :
    readerRead idDec ⟨[1, 0, 0, 0], (), none, true⟩ 1
      = some (⟨[], (), none, true⟩, [], 0, some GoErr.eof)
    ∧ GoErr.eof ≠ GoErr.unexpectedEOF := by
  decide

/-- C4 (amended): with no pending data, (i) if the source is exhausted
before any byte of the header, Read surfaces end-of-stream (io.EOF);
(ii) if the source ends after a partial header, Read returns the
truncation error io.ErrUnexpectedEOF; (iii) after a complete header
announcing L payload bytes with 0 < L and L within the 65809-byte
staging bound, Read returns the truncation error when at least one but
fewer than L payload bytes follow, but surfaces end-of-stream (io.EOF)
when no payload byte follows at all; and (iv) after a complete header
announcing more than `boundedStreamingBlockSize` (65809) bytes, Read
panics with a slice-bounds violation at `uncompressedBuf[:blockSize]`
(modelled as `none`), returning neither error, whatever follows the
header. -/
theorem claim4_amended {DS : Type} (dec : DS → List ℕ → DS × DecRes)
    (st : RState DS) (k : ℕ) (hk : 1 ≤ k) (hp : st.pending = none) :
    (st.src = [] →
      readerRead dec st k = some ({ st with src := [] }, [], 0, some GoErr.eof))
    ∧ (st.src ≠ [] → st.src.length < 4 →
      readerRead dec st k = some ({ st with src := [] }, [], 0, some GoErr.unexpectedEOF))
    ∧ (∀ hdr tail, st.src = hdr ++ tail → hdr.length = 4 →
        0 < leUint32 hdr → leUint32 hdr ≤ boundedStreamingBlockSize →
        tail.length < leUint32 hdr →
        readerRead dec st k = some ({ st with src := [] }, [], 0,
          if tail = [] then some GoErr.eof else some GoErr.unexpectedEOF))
    ∧ (∀ hdr tail, st.src = hdr ++ tail → hdr.length = 4 →
        boundedStreamingBlockSize < leUint32 hdr →
        readerRead dec st k = none) := by
  have hk0 : ¬ k = 0 := by omega
  refine ⟨?_, ?_, ?_, ?_⟩
  · intro hsrc
    simp [readerRead, hk0, hp, readFull, hsrc]
  · intro hne hlt
    have h1 : ¬ (4 ≤ st.src.length) := by omega
    have h2 : ¬ st.src.length = 0 := by
      simpa [List.length_eq_zero] using hne
    simp [readerRead, hk0, hp, readFull, h1, h2]
  · intro hdr tail hsrc hhdr hpos hfit hshort
    have hnb : ¬ leUint32 hdr > boundedStreamingBlockSize := by omega
    rcases eq_or_ne tail ([] : List ℕ) with ht | ht
    · subst ht
      have hH : readFull hdr 4 = (hdr, [], none) := by
        simpa using readFull_split hdr [] 4 hhdr
      have hP : readFull [] (leUint32 hdr) = ([], [], some GoErr.eof) :=
        readFull_eof (leUint32 hdr) (by omega)
      have hsrc2 : st.src = hdr := by simpa using hsrc
      simp [readerRead, hk0, hp, hsrc2, hH, hnb, hP]
    · have hH : readFull (hdr ++ tail) 4 = (hdr, tail, none) := readFull_split hdr tail 4 hhdr
      have hP : readFull tail (leUint32 hdr) = (tail, [], some GoErr.unexpectedEOF) :=
        readFull_short tail (leUint32 hdr) ht hshort
      simp [readerRead, hk0, hp, hsrc, hH, hnb, hP, ht]
  · intro hdr tail hsrc hhdr hbig
    have hH : readFull (hdr ++ tail) 4 = (hdr, tail, none) := readFull_split hdr tail 4 hhdr
    simp [readerRead, hk0, hp, hsrc, hH, hbig]

/-- Witness for C4 (amended) on all four source shapes: empty source,
partial header, complete header with missing payload (zero-byte and
partial-payload cases), and an oversized header ([0, 0, 2, 0] announces
131072 > 65809 bytes, so Read panics). -/
theorem claim4_amended_witness :
    readerRead idDec ⟨[], (), none, true⟩ 3
      = some (⟨[], (), none, true⟩, [], 0, some GoErr.eof)
    ∧ readerRead idDec ⟨[7, 7], (), none, true⟩ 3
      = some (⟨[], (), none, true⟩, [], 0, some GoErr.unexpectedEOF)
    ∧ readerRead idDec ⟨[2, 0, 0, 0, 5], (), none, true⟩ 3
      = some (⟨[], (), none, true⟩, [], 0, some GoErr.unexpectedEOF)
    ∧ readerRead idDec ⟨[0, 0, 2, 0], (), none, true⟩ 3 = none := by
  refine ⟨?_, ?_, ?_, ?_⟩
  · exact (claim4_amended idDec ⟨[], (), none, true⟩ 3 (by decide) rfl).1 rfl
  · exact (claim4_amended idDec ⟨[7, 7], (), none, true⟩ 3 (by decide) rfl).2.1
      (by decide) (by decide)
  · have h := (claim4_amended idDec ⟨[2, 0, 0, 0, 5], (), none, true⟩ 3 (by decide) rfl).2.2.1
      [2, 0, 0, 0] [5] rfl (by decide) (by decide) (by decide) (by decide)
    simpa using h
  · have h := (claim4_amended idDec ⟨[0, 0, 2, 0], (), none, true⟩ 3 (by decide) rfl).2.2.2
      [0, 0, 2, 0] [] (by decide) (by decide) (by decide)
    exact h

/-! ## Claim C6 (counterexample) -/

/-- C6 counterexample: on an exhausted source, a single Read with an
empty destination buffer returns `(0, nil)` from the deprecated
push-style reader but `(0, io.EOF)` from `DecompressReader`, so the two
decoders do not produce identical observable read semantics for every
destination-size sequence. -/
theorem claim6_counterexample :
    readerTrace idDec ⟨[], (), none, true⟩ [0] = [some ([], 0, none)]
    ∧ decompressReaderTrace idDec ⟨[], (), [], 0⟩ [0] = [some ([], 0, some GoErr.eof)]
    ∧ ([some ([], 0, none)] : List (Option ReadObs))
        ≠ [some ([], 0, some GoErr.eof)] := by
  refine ⟨by decide, by decide, by decide⟩

/-! ## Chunking and writer lemmas -/

theorem streamingBlockSize_eq : streamingBlockSize = 65536 := rfl

theorem chunksGo_fuel : ∀ f1 f2 (l : List ℕ), l.length ≤ f1 → l.length ≤ f2 →
    chunksGo f1 l = chunksGo f2 l := by
  intro f1
  induction f1 with
  | zero =>
    intro f2 l h1 h2
    have hl : l = [] := List.length_eq_zero.mp (Nat.le_zero.mp h1)
    subst hl
    cases f2 <;> simp [chunksGo]
  | succ f ih =>
    intro f2 l h1 h2
    cases l with
    | nil => cases f2 <;> simp [chunksGo]
    | cons a t =>
      cases f2 with
      | zero => simp at h2
      | succ g =>
        simp only [chunksGo]
        have hd : ((a :: t).drop streamingBlockSize).length ≤ f := by
          simp only [List.length_drop, List.length_cons, streamingBlockSize_eq]
          simp only [List.length_cons] at h1
          omega
        have hd2 : ((a :: t).drop streamingBlockSize).length ≤ g := by
          simp only [List.length_drop, List.length_cons, streamingBlockSize_eq]
          simp only [List.length_cons] at h2
          omega
        rw [ih g _ hd hd2]

theorem chunks_nil : chunks [] = [] := rfl

theorem chunks_cons (a : ℕ) (t : List ℕ) :
    chunks (a :: t) = (a :: t).take streamingBlockSize
      :: chunks ((a :: t).drop streamingBlockSize) := by
  show chunksGo (a :: t).length (a :: t) = _
  simp only [List.length_cons, chunksGo]
  congr 1
  apply chunksGo_fuel
  · simp only [List.length_drop, List.length_cons, streamingBlockSize_eq]
    omega
  · exact Nat.le_refl _

theorem chunks_spec : ∀ (n : ℕ) (l : List ℕ), l.length ≤ n →
    (chunks l).flatten = l
    ∧ ∀ c ∈ chunks l, c ≠ [] ∧ c.length ≤ streamingBlockSize := by
  intro n
  induction n with
  | zero =>
    intro l h
    have hl : l = [] := List.length_eq_zero.mp (Nat.le_zero.mp h)
    subst hl
    simp [chunks_nil]
  | succ n ih =>
    intro l h
    cases l with
    | nil => simp [chunks_nil]
    | cons a t =>
      rw [chunks_cons]
      have hd : ((a :: t).drop streamingBlockSize).length ≤ n := by
        simp only [List.length_drop, List.length_cons, streamingBlockSize_eq]
        simp only [List.length_cons] at h
        omega
      obtain ⟨ih1, ih2⟩ := ih _ hd
      refine ⟨?_, ?_⟩
      · simp only [List.flatten_cons, ih1, List.take_append_drop]
      · intro c hc
        rcases List.mem_cons.mp hc with hceq | hcm
        · subst hceq
          refine ⟨?_, ?_⟩
          · simp [streamingBlockSize_eq]
          · simp only [List.length_take]
            exact Nat.min_le_left streamingBlockSize (a :: t).length
        · exact ih2 c hcm

theorem writeFrame_fail {CS κ : Type} (comp : CS → List ℕ → CS × List ℕ)
    (sinkW : κ → List ℕ → κ × Option GoErr) (st : WState CS κ) (b : List ℕ)
    (h : (comp st.cstate b).2 = []) :
    writeFrame comp sinkW st b
      = (⟨(comp st.cstate b).1, (st.inpBufIndex + 1) % 2,
          st.totalCompressedWritten, st.sink⟩,
         0, some GoErr.compressFailed) := by
  simp [writeFrame, h]

theorem writeFrame_listSink {CS : Type} (comp : CS → List ℕ → CS × List ℕ)
    (st : WState CS (List ℕ)) (b : List ℕ) (h : (comp st.cstate b).2 ≠ []) :
    writeFrame comp listSink st b
      = (⟨(comp st.cstate b).1, (st.inpBufIndex + 1) % 2,
          st.totalCompressedWritten + (comp st.cstate b).2.length + 4,
          st.sink ++ putUint32LE (comp st.cstate b).2.length ++ (comp st.cstate b).2⟩,
         b.length, none) := by
  simp [writeFrame, listSink, h]

theorem writeFrame_count {CS κ : Type} (comp : CS → List ℕ → CS × List ℕ)
    (sinkW : κ → List ℕ → κ × Option GoErr) (st : WState CS κ) (b : List ℕ) :
    (writeFrame comp sinkW st b).2.2 = none →
    (writeFrame comp sinkW st b).2.1 = b.length := by
  simp only [writeFrame]
  split
  · intro h
    simp at h
  · split
    · intro h
      simp at h
    · split
      · intro h
        simp at h
      · intro _
        rfl

theorem writeLoopGo_eq {CS κ : Type} (comp : CS → List ℕ → CS × List ℕ)
    (sinkW : κ → List ℕ → κ × Option GoErr) :
    ∀ (fuel : ℕ) (rest : List ℕ) (st : WState CS κ) (acc : ℕ), rest.length ≤ fuel →
    writeLoopGo comp sinkW fuel st rest acc
      = processChunks comp sinkW st (chunks rest) acc := by
  intro fuel
  induction fuel with
  | zero =>
    intro rest st acc h
    have hl : rest = [] := List.length_eq_zero.mp (Nat.le_zero.mp h)
    subst hl
    simp [writeLoopGo, chunks_nil, processChunks]
  | succ f ih =>
    intro rest st acc h
    cases rest with
    | nil => simp [writeLoopGo, chunks_nil, processChunks]
    | cons a t =>
      rw [chunks_cons]
      simp only [writeLoopGo, processChunks]
      cases hr : (writeFrame comp sinkW st ((a :: t).take streamingBlockSize)).2.2 with
      | some e => simp [hr]
      | none =>
        simp only [hr]
        apply ih
        simp only [List.length_drop, List.length_cons, streamingBlockSize_eq]
        simp only [List.length_cons] at h
        omega

theorem processChunks_none {CS κ : Type} (comp : CS → List ℕ → CS × List ℕ)
    (sinkW : κ → List ℕ → κ × Option GoErr) :
    ∀ (bs : List (List ℕ)) (st : WState CS κ) (acc : ℕ) st2 n,
    processChunks comp sinkW st bs acc = (st2, n, none) →
    n = acc + (bs.map List.length).sum := by
  intro bs
  induction bs with
  | nil =>
    intro st acc st2 n h
    simp only [processChunks, Prod.mk.injEq] at h
    simp [← h.2.1]
  | cons c cs ih =>
    intro st acc st2 n h
    simp only [processChunks] at h
    cases hr : (writeFrame comp sinkW st c).2.2 with
    | some e =>
      rw [hr] at h
      simp at h
    | none =>
      rw [hr] at h
      have hw := writeFrame_count comp sinkW st c hr
      have hn := ih _ _ _ _ h
      rw [hw] at hn
      simp only [List.map_cons, List.sum_cons]
      omega

theorem processChunks_error {CS κ : Type} (comp : CS → List ℕ → CS × List ℕ)
    (sinkW : κ → List ℕ → κ × Option GoErr) :
    ∀ (bs : List (List ℕ)) (st : WState CS κ) (acc : ℕ) st2 n e,
    processChunks comp sinkW st bs acc = (st2, n, some e) →
    ∃ j, j ≤ bs.length ∧ n = acc + ((bs.take j).map List.length).sum := by
  intro bs
  induction bs with
  | nil =>
    intro st acc st2 n e h
    simp [processChunks] at h
  | cons c cs ih =>
    intro st acc st2 n e h
    simp only [processChunks] at h
    cases hr : (writeFrame comp sinkW st c).2.2 with
    | some e2 =>
      rw [hr] at h
      simp only [Prod.mk.injEq] at h
      exact ⟨0, by omega, by simp [← h.2.1]⟩
    | none =>
      rw [hr] at h
      have hw := writeFrame_count comp sinkW st c hr
      obtain ⟨j, hj, hn⟩ := ih _ _ _ _ _ h
      rw [hw] at hn
      refine ⟨j + 1, by simpa using hj, ?_⟩
      simp only [List.take_succ_cons, List.map_cons, List.sum_cons]
      omega

theorem processChunks_listSink {CS : Type} (comp : CS → List ℕ → CS × List ℕ) :
    ∀ (bs : List (List ℕ)) (st : WState CS (List ℕ)) (acc : ℕ),
    (processChunks comp listSink st bs acc).2.2 = none →
    (processChunks comp listSink st bs acc).1.sink
      = st.sink ++ ((compressedBlocks comp st.cstate bs).map
          (fun c => putUint32LE c.length ++ c)).flatten := by
  intro bs
  induction bs with
  | nil =>
    intro st acc _
    simp [processChunks, compressedBlocks]
  | cons c cs ih =>
    intro st acc h
    rcases eq_or_ne (comp st.cstate c).2 ([] : List ℕ) with hc | hc
    · simp only [processChunks, writeFrame_fail comp listSink st c hc] at h
      exact absurd h (by simp)
    · have hw := writeFrame_listSink comp st c hc
      simp only [processChunks, hw] at h ⊢
      rw [ih _ _ h]
      simp [compressedBlocks]

/-! ## Claim C3 -/

/-- C3: `Writer.Write` accepts input of any size: it splits `src`
front-to-back into consecutive nonempty blocks of at most
`streamingBlockSize` (65536) bytes and processes them in order (one
`writeFrame` per block); on success it emits, for each block, a 4-byte
little-endian header holding the compressed payload length followed by
exactly that many compressed payload bytes, and returns `len(src)` for
every sink; when a block's compression or a sink write fails it returns
the number of bytes of `src` consumed by the fully processed earlier
blocks together with the error. -/
theorem claim3_writer_write {CS κ : Type} (comp : CS → List ℕ → CS × List ℕ)
    (sinkW : κ → List ℕ → κ × Option GoErr) (st : WState CS κ) (src : List ℕ) :
    ((chunks src).flatten = src
      ∧ ∀ c ∈ chunks src, c ≠ [] ∧ c.length ≤ streamingBlockSize)
    ∧ writerWrite comp sinkW st src = processChunks comp sinkW st (chunks src) 0
    ∧ (∀ st2 n, writerWrite comp sinkW st src = (st2, n, none) → n = src.length)
    ∧ (∀ (st0 : WState CS (List ℕ)),
        (writerWrite comp listSink st0 src).2.2 = none →
        (writerWrite comp listSink st0 src).1.sink
          = st0.sink ++ ((compressedBlocks comp st0.cstate (chunks src)).map
              (fun c => putUint32LE c.length ++ c)).flatten)
    ∧ (∀ st2 n e, writerWrite comp sinkW st src = (st2, n, some e) →
        ∃ j, j ≤ (chunks src).length
          ∧ n = (((chunks src).take j).map List.length).sum) := by
  have hchunks := chunks_spec src.length src (Nat.le_refl _)
  have heq : ∀ {κ2 : Type} (sw : κ2 → List ℕ → κ2 × Option GoErr)
      (s0 : WState CS κ2), writerWrite comp sw s0 src
        = processChunks comp sw s0 (chunks src) 0 := by
    intro κ2 sw s0
    exact writeLoopGo_eq comp sw src.length src s0 0 (Nat.le_refl _)
  refine ⟨hchunks, heq sinkW st, ?_, ?_, ?_⟩
  · intro st2 n h
    rw [heq sinkW st] at h
    have := processChunks_none comp sinkW (chunks src) st 0 st2 n h
    have hlen : ((chunks src).map List.length).sum = src.length := by
      rw [← List.length_flatten, hchunks.1]
    omega
  · intro st0 h
    rw [heq listSink st0] at h ⊢
    exact processChunks_listSink comp (chunks src) st0 0 h
  · intro st2 n e h
    rw [heq sinkW st] at h
    obtain ⟨j, hj, hn⟩ := processChunks_error comp sinkW (chunks src) st 0 st2 n e h
    exact ⟨j, hj, by omega⟩

/-- Witness for C3: writing the 2-byte input [5, 6] through a Writer over
an accumulating sink with the identity block codec consumes 2 bytes, ends
with no error, and the sink holds the little-endian length header [2, 0,
0, 0] followed by the 2 compressed payload bytes. -/
theorem claim3_writer_write_witness :
    (writerWrite idComp listSink ⟨(), 0, 0, []⟩ [5, 6]).2.1 = 2
    ∧ (writerWrite idComp listSink ⟨(), 0, 0, []⟩ [5, 6]).1.sink
      = [] ++ ((compressedBlocks idComp () (chunks [5, 6])).map
          (fun c => putUint32LE c.length ++ c)).flatten
    ∧ (writerWrite idComp listSink ⟨(), 0, 0, []⟩ [5, 6]).1.sink = [2, 0, 0, 0, 5, 6] := by
  have h := claim3_writer_write idComp listSink (⟨(), 0, 0, []⟩ : WState Unit (List ℕ)) [5, 6]
  refine ⟨?_, ?_, ?_⟩
  · exact h.2.2.1 (writerWrite idComp listSink ⟨(), 0, 0, []⟩ [5, 6]).1
      (writerWrite idComp listSink ⟨(), 0, 0, []⟩ [5, 6]).2.1 (by decide)
  · exact h.2.2.2.1 ⟨(), 0, 0, []⟩ (by decide)
  · decide

/-! ## Round-trip lemmas -/

theorem readerRead_frame_ok {DS : Type} (dec : DS → List ℕ → DS × DecRes)
    (ds : DS) (c E b : List ℕ) (isL : Bool)
    (hlen : c.length ≤ boundedStreamingBlockSize)
    (hdec : (dec ds c).2 = DecRes.ok b) (hb : b.length ≤ streamingBlockSize) :
    readerRead dec ⟨putUint32LE c.length ++ (c ++ E), ds, none, isL⟩ streamingBlockSize
      = some (⟨E, (dec ds c).1, none, !isL⟩, b, (b.length : ℤ), none) := by
  have hk0 : ¬ streamingBlockSize = 0 := by simp [streamingBlockSize_eq]
  have hlen32 : c.length < 4294967296 := by
    have hbd : boundedStreamingBlockSize = 65809 := rfl
    omega
  have hH : readFull (putUint32LE c.length ++ (c ++ E)) 4
      = (putUint32LE c.length, c ++ E, none) :=
    readFull_split _ _ 4 (putUint32LE_length _)
  have hle : leUint32 (putUint32LE c.length) = c.length := leUint32_putUint32LE _ hlen32
  have hbig : ¬ c.length > boundedStreamingBlockSize := by omega
  have hP : readFull (c ++ E) c.length = (c, E, none) := readFull_split c E c.length rfl
  have hmin : min b.length streamingBlockSize = b.length := Nat.min_eq_left hb
  have hgt : ¬ b.length > streamingBlockSize := by omega
  simp [readerRead, hk0, hH, hle, hbig, hP, hdec, hmin, hgt]

theorem writer_encode {CS DS : Type} (comp : CS → List ℕ → CS × List ℕ)
    (dec : DS → List ℕ → DS × DecRes) (Sync : CS → DS → Prop)
    (hS : StreamSync comp dec Sync) :
    ∀ (bs : List (List ℕ)) (st : WState CS (List ℕ)) (acc : ℕ) (ds : DS),
    Sync st.cstate ds → (∀ b ∈ bs, b ≠ [] ∧ b.length ≤ streamingBlockSize) →
    ∃ st2, processChunks comp listSink st bs acc
        = (st2, acc + (bs.map List.length).sum, none)
      ∧ st2.sink = st.sink ++ encodeFrames comp st.cstate bs := by
  intro bs
  induction bs with
  | nil =>
    intro st acc ds hsy hb
    exact ⟨st, by simp [processChunks], by simp [encodeFrames]⟩
  | cons b bs ih =>
    intro st acc ds hsy hb
    obtain ⟨hc, hclen, hdec, hsy2⟩ :=
      hS st.cstate ds b hsy (hb b (by simp)).1 (hb b (by simp)).2
    have hw := writeFrame_listSink comp st b hc
    obtain ⟨st3, h1, h2⟩ := ih
      (⟨(comp st.cstate b).1, (st.inpBufIndex + 1) % 2,
        st.totalCompressedWritten + (comp st.cstate b).2.length + 4,
        st.sink ++ putUint32LE (comp st.cstate b).2.length ++ (comp st.cstate b).2⟩)
      (acc + b.length) ((dec ds (comp st.cstate b).2).1) hsy2
      (fun x hx => hb x (by simp [hx]))
    refine ⟨st3, ?_, ?_⟩
    · simp only [processChunks, hw]
      rw [h1]
      simp [Nat.add_assoc]
    · rw [h2]
      simp only [encodeFrames]
      simp [List.append_assoc]

theorem readMany_step {DS : Type} (dec : DS → List ℕ → DS × DecRes)
    (fuel : ℕ) (st st2 : RState DS) (k : ℕ) (d : List ℕ) (n : ℤ)
    (h : readerRead dec st k = some (st2, d, n, none)) :
    readMany dec (fuel + 1) st k
      = (d ++ (readMany dec fuel st2 k).1, (readMany dec fuel st2 k).2) := by
  show (match readerRead dec st k with
    | none => ([], none)
    | some r =>
      match r.2.2.2 with
      | some e => ([], some e)
      | none => (r.2.1 ++ (readMany dec fuel r.1 k).1, (readMany dec fuel r.1 k).2)) = _
  rw [h]

theorem encode_decode {CS DS : Type} (comp : CS → List ℕ → CS × List ℕ)
    (dec : DS → List ℕ → DS × DecRes) (Sync : CS → DS → Prop)
    (hS : StreamSync comp dec Sync) :
    ∀ (bs : List (List ℕ)) (cs : CS) (ds : DS) (isL : Bool),
    Sync cs ds → (∀ b ∈ bs, b ≠ [] ∧ b.length ≤ streamingBlockSize) →
    readMany dec (bs.length + 1) ⟨encodeFrames comp cs bs, ds, none, isL⟩
      streamingBlockSize = (bs.flatten, some GoErr.eof) := by
  intro bs
  induction bs with
  | nil =>
    intro cs ds isL hsy hb
    have hk0 : ¬ streamingBlockSize = 0 := by simp [streamingBlockSize_eq]
    have h4 : readFull [] 4 = ([], [], some GoErr.eof) := readFull_eof 4 (by omega)
    simp [readMany, encodeFrames, readerRead, hk0, h4]
  | cons b bs ih =>
    intro cs ds isL hsy hb
    obtain ⟨hc, hclen, hdec, hsy2⟩ := hS cs ds b hsy (hb b (by simp)).1 (hb b (by simp)).2
    have hro := readerRead_frame_ok dec ds (comp cs b).2
      (encodeFrames comp (comp cs b).1 bs) b isL hclen hdec (hb b (by simp)).2
    have hih := ih (comp cs b).1 ((dec ds (comp cs b).2).1) (!isL) hsy2
      (fun x hx => hb x (by simp [hx]))
    simp only [encodeFrames, List.length_cons]
    rw [readMany_step dec (bs.length + 1) _ _ _ b (b.length : ℤ) hro, hih]
    simp

/-! ## Claim C1 -/

/-- C1: for every byte sequence `b` (including the empty one), assuming
the block codec's collaborator contract (one-shot round trip at `b` for
the whole-message pair, and the streaming contract `StreamSync` for the
continue-variants), decode of encode is exactly `b` on both paths:
`Uncompress` with a destination of length `len(b)` inverts `Compress`,
and draining the stream decoder over the framed bytes that the stream
encoder wrote for `b` yields exactly `b` followed by end-of-stream. -/
theorem claim1_roundtrip {CS DS : Type} (comp : CS → List ℕ → CS × List ℕ)
    (dec : DS → List ℕ → DS × DecRes) (Sync : CS → DS → Prop)
    (compSafe : List ℕ → ℕ → List ℕ) (decSafe : List ℕ → ℕ → ℤ × List ℕ)
    (b : List ℕ) (hS : StreamSync comp dec Sync)
    (cs0 : CS) (ds0 : DS) (h0 : Sync cs0 ds0)
    (hc1 : compSafe b (CompressBound b) ≠ [])
    (hc2 : (compSafe b (CompressBound b)).length ≤ CompressBound b)
    (hc3 : decSafe (compSafe b (CompressBound b)) b.length = ((b.length : ℤ), b)) :
    (∀ out dst : List ℕ, out.length = CompressBound b → dst.length = b.length →
      Uncompress decSafe dst
          ((Compress compSafe out b).1.take (Compress compSafe out b).2.1)
        = (b, (b.length : ℤ), none))
    ∧ ∃ st2 : WState CS (List ℕ),
        writerWrite comp listSink ⟨cs0, 0, 0, []⟩ b = (st2, b.length, none)
        ∧ readMany dec ((chunks b).length + 1) ⟨st2.sink, ds0, none, true⟩
            streamingBlockSize = (b, some GoErr.eof) := by
  constructor
  · intro out dst hout hdst
    have hne : ¬ (compSafe b (CompressBound b)).length = 0 := by
      simpa [List.length_eq_zero] using hc1
    have hcomp : Compress compSafe out b
        = (overwrite out (compSafe b (CompressBound b)),
           (compSafe b (CompressBound b)).length, none) := by
      simp [Compress, hout, hne]
    rw [hcomp]
    simp only
    rw [overwrite_take out _ (by rw [hout]; exact hc2)]
    simp [Uncompress, hdst, hc3, overwrite_exact dst b hdst]
  · have hchunks := chunks_spec b.length b (Nat.le_refl _)
    have heq := writeLoopGo_eq comp listSink b.length b ⟨cs0, 0, 0, []⟩ 0 (Nat.le_refl _)
    obtain ⟨st2, h1, h2⟩ := writer_encode comp dec Sync hS (chunks b)
      ⟨cs0, 0, 0, []⟩ 0 ds0 h0 hchunks.2
    have hlen : ((chunks b).map List.length).sum = b.length := by
      rw [← List.length_flatten, hchunks.1]
    refine ⟨st2, ?_, ?_⟩
    · show writeLoopGo comp listSink b.length ⟨cs0, 0, 0, []⟩ b 0 = (st2, b.length, none)
      rw [heq, h1, Nat.zero_add, hlen]
    · have h3 : st2.sink = encodeFrames comp cs0 (chunks b) := by simpa using h2
      rw [h3]
      have h4 := encode_decode comp dec Sync hS (chunks b) cs0 ds0 true h0 hchunks.2
      rw [hchunks.1] at h4
      exact h4

/-- The identity codec pair satisfies the streaming collaborator
contract. -/
theorem idSync : StreamSync idComp idDec (fun _ _ => True) := by
  intro cs ds b _ hb hlen
  refine ⟨hb, ?_, rfl, trivial⟩
  show b.length ≤ boundedStreamingBlockSize
  have h1 : boundedStreamingBlockSize = 65809 := rfl
  have h2 : streamingBlockSize = 65536 := rfl
  omega

/-- Witness for C1 with the identity codec on the input [3, 1, 4]: the
whole-message path reproduces the input, and the streaming path writes
one frame and reads it back, ending with end-of-stream. -/
theorem claim1_roundtrip_witness :
    Uncompress idDecSafe [0, 0, 0]
        ((Compress idCompSafe (List.replicate 19 0) [3, 1, 4]).1.take
          (Compress idCompSafe (List.replicate 19 0) [3, 1, 4]).2.1)
      = ([3, 1, 4], 3, none)
    ∧ readMany idDec ((chunks [3, 1, 4]).length + 1)
        ⟨(writerWrite idComp listSink ⟨(), 0, 0, []⟩ [3, 1, 4]).1.sink, (), none, true⟩
        streamingBlockSize = ([3, 1, 4], some GoErr.eof) := by
  have h := claim1_roundtrip idComp idDec (fun _ _ => True) idCompSafe idDecSafe
    [3, 1, 4] idSync () () trivial (by decide) (by decide) (by decide)
  obtain ⟨st2, h1, h2⟩ := h.2
  refine ⟨h.1 (List.replicate 19 0) [0, 0, 0] (by decide) (by decide), ?_⟩
  have hst : (writerWrite idComp listSink ⟨(), 0, 0, []⟩ [3, 1, 4]).1 = st2 := by
    rw [h1]
  rw [hst]
  exact h2

/-! ## Equivalence of the two stream decoders -/

theorem bisim_step {DS : Type} (dec : DS → List ℕ → DS × DecRes)
    (r : RState DS) (d : DRState DS) (k : ℕ) (hk : 1 ≤ k) (hrel : RelRD r d) :
    (readerRead dec r k = none ∧ decompressReaderRead dec d k = none)
    ∨ ∃ r2 d2 obs, readerRead dec r k = some (r2, obs)
        ∧ decompressReaderRead dec d k = some (d2, obs) ∧ RelRD r2 d2 := by
  obtain ⟨hsrc, hds, hbuf, hne⟩ := hrel
  have hk0 : ¬ k = 0 := by omega
  cases hp : r.pending with
  | some l =>
    have hl : l ≠ [] := fun h => hne (h ▸ hp)
    have hbuf2 : d.buf = l := by rw [← hbuf, hp, pendList]
    have hlpos : 0 < l.length := List.length_pos.mpr hl
    have hn : 0 < min k l.length := by omega
    have hr : readerRead dec r k
        = some (⟨r.src, r.dstate,
            if min k l.length = l.length then none else some (l.drop (min k l.length)),
            r.isLeft⟩,
           l.take (min k l.length), ((min k l.length : ℕ) : ℤ), none) := by
      simp [readerRead, hk0, hp, readFromPending]
    have hd2 : decompressReaderRead dec d k
        = some ({ d with buf := l.drop (min k l.length) }, l.take (min k l.length),
           ((min k l.length : ℕ) : ℤ), none) := by
      simp [decompressReaderRead, hbuf2, hn]
    refine Or.inr ⟨_, _, _, hr, hd2, hsrc, hds, ?_, ?_⟩
    · by_cases hm : min k l.length = l.length
      · simp [hm, pendList]
      · simp [hm, pendList]
    · by_cases hm : min k l.length = l.length
      · simp [hm]
      · simp only [hm, if_false, ne_eq, Option.some.injEq]
        intro h
        have := congrArg List.length h
        simp only [List.length_drop, List.length_nil] at this
        omega
  | none =>
    have hbuf2 : d.buf = [] := by rw [← hbuf, hp, pendList]
    have hnn : ¬ 0 < min k d.buf.length := by simp [hbuf2]
    rcases hH : readFull r.src 4 with ⟨hdrB, rest1, e1⟩
    have hHd : readFull d.src 4 = (hdrB, rest1, e1) := by rw [← hsrc, hH]
    cases e1 with
    | some e =>
      have hr : readerRead dec r k = some ({ r with src := rest1 }, [], 0, some e) := by
        simp [readerRead, hk0, hp, hH]
      have hd3 : decompressReaderRead dec d k
          = some ({ d with src := rest1 }, [], 0, some e) := by
        simp [decompressReaderRead, hnn, hHd]
      exact Or.inr ⟨_, _, _, hr, hd3, rfl, hds, by simp [hp, hbuf2, pendList], by simp [hp]⟩
    | none =>
      by_cases hbig : leUint32 hdrB > boundedStreamingBlockSize
      · refine Or.inl ⟨?_, ?_⟩
        · simp [readerRead, hk0, hp, hH, hbig]
        · simp [decompressReaderRead, hnn, hHd, hbig]
      · rcases hP : readFull rest1 (leUint32 hdrB) with ⟨payload, rest2, e2⟩
        cases e2 with
        | some e =>
          have hr : readerRead dec r k
              = some ({ r with src := rest2 }, [], 0, some e) := by
            simp [readerRead, hk0, hp, hH, hbig, hP]
          have hd3 : decompressReaderRead dec d k
              = some (⟨rest2, d.dstate, d.buf, (d.inpBufIndex + 1) % 2⟩,
                 [], 0, some e) := by
            simp [decompressReaderRead, hnn, hHd, hbig, hP]
          exact Or.inr ⟨_, _, _, hr, hd3, rfl, hds,
            by simp [hp, hbuf2, pendList], by simp [hp]⟩
        | none =>
          rcases hD : dec r.dstate payload with ⟨ds2, res⟩
          have hDd : dec d.dstate payload = (ds2, res) := by rw [← hds, hD]
          cases res with
          | fail code =>
            have hr : readerRead dec r k
                = some (⟨rest2, ds2, r.pending, !r.isLeft⟩,
                   [], code, some GoErr.decompressFailed) := by
              simp [readerRead, hk0, hp, hH, hbig, hP, hD]
            have hd3 : decompressReaderRead dec d k
                = some (⟨rest2, ds2, d.buf, (d.inpBufIndex + 1) % 2⟩,
                   [], code, some GoErr.decompressFailed) := by
              simp [decompressReaderRead, hnn, hHd, hbig, hP, hDd]
            exact Or.inr ⟨_, _, _, hr, hd3, rfl, rfl,
              by simp [hp, hbuf2, pendList], by simp [hp]⟩
          | ok out =>
            have hr : readerRead dec r k
                = some (⟨rest2, ds2,
                    if out.length > k then some (out.drop (min out.length k)) else none,
                    !r.isLeft⟩,
                   out.take (min out.length k), ((min out.length k : ℕ) : ℤ), none) := by
              simp [readerRead, hk0, hp, hH, hbig, hP, hD]
            have hd3 : decompressReaderRead dec d k
                = some (⟨rest2, ds2, out.drop (min k out.length), (d.inpBufIndex + 1) % 2⟩,
                   out.take (min k out.length), ((min k out.length : ℕ) : ℤ), none) := by
              simp [decompressReaderRead, hnn, hHd, hbig, hP, hDd]
            have hmc : min out.length k = min k out.length := Nat.min_comm _ _
            rw [hmc] at hr
            refine Or.inr ⟨_, _, _, hr, hd3, rfl, rfl, ?_, ?_⟩
            · by_cases hgt : out.length > k
              · simp only [hgt, if_true, pendList]
              · simp only [hgt, if_false, pendList]
                have hm2 : min k out.length = out.length := by omega
                simp [hm2]
            · by_cases hgt : out.length > k
              · simp only [hgt, if_true, ne_eq, Option.some.injEq]
                intro h
                have := congrArg List.length h
                simp only [List.length_drop, List.length_nil] at this
                omega
              · simp [hgt]

theorem trace_bisim {DS : Type} (dec : DS → List ℕ → DS × DecRes) :
    ∀ (ks : List ℕ) (r : RState DS) (d : DRState DS),
    RelRD r d → (∀ k ∈ ks, 1 ≤ k) →
    readerTrace dec r ks = decompressReaderTrace dec d ks := by
  intro ks
  induction ks with
  | nil => intro r d _ _; rfl
  | cons k ks ih =>
    intro r d hrel hks
    rcases bisim_step dec r d k (hks k (by simp)) hrel with
      ⟨hr, hd⟩ | ⟨r2, d2, obs, hr, hd, hrel2⟩
    · simp only [readerTrace, decompressReaderTrace, hr, hd]
    · simp only [readerTrace, decompressReaderTrace, hr, hd]
      rw [ih _ _ hrel2 (fun x hx => hks x (by simp [hx]))]

/-! ## Claim C6 (amended) -/

/-- C6 (amended): for every framed input stream, every decode history
context and every sequence of Read calls whose destination buffers are
all NONEMPTY, the deprecated push-style reader and the pull-style
DecompressReader produce identical observable read semantics: the same
bytes delivered into the destinations, the same returned counts and the
same returned errors, call by call.  (With an empty destination in the
sequence the two differ, see the counterexample.) -/
theorem claim6_amended {DS : Type} (dec : DS → List ℕ → DS × DecRes)
    (src : List ℕ) (ds : DS) (ks : List ℕ) (hks : ∀ k ∈ ks, 1 ≤ k) :
    readerTrace dec ⟨src, ds, none, true⟩ ks
      = decompressReaderTrace dec ⟨src, ds, [], 0⟩ ks :=
  trace_bisim dec ks ⟨src, ds, none, true⟩ ⟨src, ds, [], 0⟩
    ⟨rfl, rfl, rfl, by simp⟩ hks

/-- Witness for C6 (amended): a two-frame source read with destination
sizes 1 and 2 produces the same trace through both decoders, here
serving one byte from the block and one from the pending tail. -/
theorem claim6_amended_witness :
    readerTrace idDec ⟨[2, 0, 0, 0, 7, 8], (), none, true⟩ [1, 2]
      = decompressReaderTrace idDec ⟨[2, 0, 0, 0, 7, 8], (), [], 0⟩ [1, 2]
    ∧ readerTrace idDec ⟨[2, 0, 0, 0, 7, 8], (), none, true⟩ [1, 2]
      = [some ([7], 1, none), some ([8], 1, none)] := by
  refine ⟨claim6_amended idDec [2, 0, 0, 0, 7, 8] () [1, 2] (by decide), by decide⟩
